import Mathlib

/-!
Verification of the disaster-response ETL pipeline (src/data/process_data.py).

The program is a three-stage batch pipeline over in-memory tables
(pandas dataframes): `load_data` inner-joins a messages table and a
categories table on the shared column named id; `clean_data` expands the
packed categories string into one integer column per category, drops the
degenerate child_alone column, filters rows whose related value is 2 and
deduplicates; `save_data` writes the result to a single-file store under a
fixed table name.  This file gives a shallow embedding of those operations:
a dataframe becomes a `Frame` (a list of column labels plus a list of rows
of cells), Python string slicing and `int()` become explicit functions on
`List Char` data, and every fallible step returns an `Option`.
-/

/-- A cell of a dataframe: the pipeline only ever holds strings (raw CSV
fields, packed category strings) and integers (ids, parsed category flags). -/
inductive Cell where
  | str : String → Cell
  | int : Int → Cell
deriving DecidableEq

/-- A dataframe: column labels plus rows of cells, positionally aligned. -/
structure Frame where
  cols : List String
  rows : List (List Cell)
deriving DecidableEq

/-- Rectangularity: every row has exactly one cell per column label. -/
def Frame.WF (f : Frame) : Prop := ∀ r ∈ f.rows, r.length = f.cols.length

instance (f : Frame) : Decidable f.WF := by
  unfold Frame.WF; infer_instance

/-- Cell lookup by position, as pandas row indexing (default never hit on
rectangular frames at in-range indices). -/
def cellAt (r : List Cell) (i : Nat) : Cell := r.getD i (Cell.int 0)

/-- First position of a column label, as pandas label lookup
(`df[name]` takes the first matching column; a missing label is a KeyError,
here `none`). -/
def findCol (cols : List String) (name : String) : Option Nat :=
  match cols with
  | [] => none
  | c :: rest => if c = name then some 0 else (findCol rest name).map (· + 1)

/-- Effectful map over a list in the `Option` monad: any failing element
makes the whole traversal fail, as an uncaught Python exception does. -/
def optMapM (f : α → Option β) : List α → Option (List β)
  | [] => some []
  | a :: l => (f a).bind (fun b => (optMapM f l).map (fun bs => b :: bs))

/-- Python `s.split(sep)` on character data, processed from the left of the
recursion: returns the piece before the first separator and the remaining
pieces. -/
def splitAux (sep : Char) : List Char → List Char × List (List Char)
  | [] => ([], [])
  | c :: cs =>
    if c = sep then ([], (splitAux sep cs).1 :: (splitAux sep cs).2)
    else (c :: (splitAux sep cs).1, (splitAux sep cs).2)

/-- Python `s.split(sep)` for a one-character separator, as used by
`df.str.split` with `;`: always returns at least one piece, and
`(String.mk []).split` gives one empty piece exactly as in Python. -/
def pySplit (sep : Char) (s : String) : List String :=
  String.mk (splitAux sep s.data).1 :: (splitAux sep s.data).2.map String.mk

/-- Python slice `s[:-2]`: all but the last two characters (empty when the
string has at most two characters). -/
def pyDropTwo (s : String) : String := String.mk (s.data.take (s.data.length - 2))

/-- Python slice `s[-1:]`: the last character as a string, or the empty
string when `s` is empty. -/
def pyTakeLast (s : String) : String := String.mk (s.data.drop (s.data.length - 1))

/-- Character-level body of `pyInt`: a single decimal digit (code points 48
to 57) parses to its value, anything else raises, modelled as `none`. -/
def pyIntChars : List Char → Option Int
  | [c] => if 48 ≤ c.toNat ∧ c.toNat ≤ 57 then some ((c.toNat - 48 : Nat) : Int) else none
  | _ => none

/-- Python `int(s)` restricted to the at-most-one-character strings produced
by the slice `s[-1:]`: a single decimal digit parses to its value, anything
else (including the empty string) raises, modelled as `none`. -/
def pyInt (s : String) : Option Int := pyIntChars s.data

/-- Step 1b of `clean_data`: category names are the split pieces of the
first row with their trailing two characters stripped. -/
def catNames (parts : List String) : List String := parts.map pyDropTwo

/-- Step 1d of `clean_data` on one cell: keep only the last character of the
string and parse it as an integer (`x[-1:]` then `astype(int)`). -/
def normalizeCell (s : String) : Option Int := pyInt (pyTakeLast s)

/-- Reading column `ci` of a row as the packed categories string; a
non-string cell cannot be split and is a fatal error. -/
def asCatString (ci : Nat) (r : List Cell) : Option String :=
  match cellAt r ci with
  | Cell.str s => some s
  | Cell.int _ => none

/-- One row of `Frame.dropCol`: delete the cells sitting under a column
label equal to `name`. -/
def dropColRow (cols : List String) (name : String) (r : List Cell) : List Cell :=
  ((cols.zip r).filter (fun p => p.1 ≠ name)).map (fun p => p.2)

/-- pandas `df.drop(name, axis=1)`: remove every column labelled `name`
together with its cells. -/
def Frame.dropCol (f : Frame) (name : String) : Frame :=
  ⟨f.cols.filter (fun c => c ≠ name), f.rows.map (dropColRow f.cols name)⟩

/-- pandas `drop_duplicates` with an explicit seen-set: keep the first
occurrence of each row, preserving order. -/
def dedupAux [DecidableEq α] (seen : List α) : List α → List α
  | [] => []
  | r :: rs => if r ∈ seen then dedupAux seen rs else r :: dedupAux (r :: seen) rs

/-- pandas `df.drop_duplicates()`: keep the first occurrence of each row. -/
def dedupRows (l : List (List Cell)) : List (List Cell) := dedupAux [] l

/-- Column labels of a pandas inner merge on id: left labels first (shared
non-key labels suffixed with x), then the right labels minus the key column
at `ic` (shared non-key labels suffixed with y). -/
def mergeCols (mcols ccols : List String) (ic : Nat) : List String :=
  mcols.map (fun c => if c = "id" then c else if c ∈ ccols then c ++ "_x" else c)
    ++ (ccols.eraseIdx ic).map (fun c => if c ∈ mcols then c ++ "_y" else c)

/-- pandas `messages.merge(categories, how=inner, on=id)`: for each left row
in order, all right rows with an equal id value, the right id cell removed;
a missing id column on either side is a fatal KeyError. -/
def Frame.merge (m c : Frame) : Option Frame :=
  match findCol m.cols ("id"), findCol c.cols ("id") with
  | some im, some ic =>
    some { cols := mergeCols m.cols c.cols ic,
           rows := m.rows.flatMap (fun mr =>
             (c.rows.filter (fun cr => cellAt cr ic = cellAt mr im)).map
               (fun cr => mr ++ cr.eraseIdx ic)) }
  | _, _ => none

/-- `load_data` with the two CSV files already parsed into frames: the
function's own logic is the inner merge on id. -/
def load_data (messages categories : Frame) : Option Frame :=
  messages.merge categories

/-- Step 1e of `clean_data`: drop the packed column from the argument and
concatenate the expanded integer columns positionally (`pd.concat` on two
frames with identical default indices). -/
def concatFrame (df : Frame) (colnames : List String) (vals : List (List Int)) : Frame :=
  ⟨(df.dropCol ("categories")).cols ++ colnames,
   ((df.dropCol ("categories")).rows.zip vals).map (fun pr => pr.1 ++ pr.2.map Cell.int)⟩

/-- Steps 1e–2c of `clean_data`, starting from the split result: splice,
drop the child_alone column (a KeyError, hence failure, when absent), keep
rows whose related value is not 2, and drop duplicate rows. -/
def cleanTail (df : Frame) (colnames : List String) (vals : List (List Int)) : Option Frame :=
  if ("child_alone") ∈ (concatFrame df colnames vals).cols then
    match findCol ((concatFrame df colnames vals).dropCol ("child_alone")).cols ("related") with
    | some ri =>
      some ⟨((concatFrame df colnames vals).dropCol ("child_alone")).cols,
            dedupRows ((((concatFrame df colnames vals).dropCol ("child_alone")).rows).filter
              (fun r => cellAt r ri ≠ Cell.int 2))⟩
    | none => none
  else none

/-- `clean_data`: split the packed categories strings on the semicolon,
name the pieces after the first row with the trailing two characters
stripped, keep only the last character of each piece parsed as an integer,
then splice, drop child_alone, filter related values equal to 2 and
deduplicate.  Any step a pandas program would die on (missing categories
column, empty frame at `iloc[0]`, ragged split widths at the column
assignment, a non-digit final character at `astype(int)`, missing
child_alone or related column) yields `none`. -/
def clean_data (df : Frame) : Option Frame :=
  match findCol df.cols ("categories") with
  | none => none
  | some ci =>
    match optMapM (asCatString ci) df.rows with
    | none => none
    | some strs =>
      match (strs.map (pySplit (';'))).head? with
      | none => none
      | some row0 =>
        if (strs.map (pySplit (';'))).all (fun p => p.length = row0.length) then
          match optMapM (fun p => optMapM normalizeCell p) (strs.map (pySplit (';'))) with
          | none => none
          | some vals => cleanTail df (catNames row0) vals
        else none

/-- The caller's frame after `clean_data` returns or raises: line 67 of the
source drops the categories column of the argument in place, and that line
runs exactly when the split, rename and normalize steps before it succeed;
every later step operates on freshly built frames. -/
def clean_data_caller (df : Frame) : Frame :=
  match findCol df.cols ("categories") with
  | none => df
  | some ci =>
    match optMapM (asCatString ci) df.rows with
    | none => df
    | some strs =>
      match (strs.map (pySplit (';'))).head? with
      | none => df
      | some row0 =>
        if (strs.map (pySplit (';'))).all (fun p => p.length = row0.length) then
          match optMapM (fun p => optMapM normalizeCell p) (strs.map (pySplit (';'))) with
          | none => df
          | some _ => df.dropCol ("categories")
        else df

/-- The single-file relational store: named tables. -/
structure Store where
  tables : List (String × Frame)
deriving DecidableEq

/-- The frame actually serialized by `to_sql`: with `index=True` pandas
prepends the implicit integer index as a column, with `index=False` the
frame is written as is. -/
def writeFrame (df : Frame) (withIndex : Bool) : Frame :=
  if withIndex then
    ⟨("index") :: df.cols, df.rows.enum.map (fun p => Cell.int (Int.ofNat p.1) :: p.2)⟩
  else df

/-- pandas `df.to_sql(tbl, engine, index=..., if_exists=replace)`: any
existing table of that name is dropped, then the frame is stored under it. -/
def to_sql (df : Frame) (tbl : String) (store : Store) (withIndex : Bool) : Store :=
  ⟨store.tables.filter (fun p => p.1 ≠ tbl) ++ [(tbl, writeFrame df withIndex)]⟩

/-- Reading a named table back from the store. -/
def read_sql_table (tbl : String) (store : Store) : Option Frame :=
  (store.tables.find? (fun p => p.1 = tbl)).map (fun p => p.2)

/-- `save_data`: write the cleaned frame under the fixed table name df,
without the implicit index, replacing prior contents. -/
def save_data (df : Frame) (store : Store) : Store :=
  to_sql df ("df") store false

/-- Observable behaviour of `main`: printed lines and pipeline stages, in
order. -/
inductive Event where
  | msg : String → Event
  | runLoad : Event
  | runClean : Event
  | runSave : Event
deriving DecidableEq

/-- The usage message printed on a wrong argument count (the source's
adjacent string literals concatenated). -/
def usageMsg : String :=
  "Please provide the filepaths of the messages and categories datasets as the first and second argument respectively, as well as the filepath of the database to save the cleaned data to as the third argument. \n\nExample: python process_data.py disaster_messages.csv disaster_categories.csv DisasterResponse.db"

/-- `main` as a trace function over `sys.argv` (program name included):
with exactly three arguments it announces and runs the three stages and
reports completion; otherwise it prints the usage message and returns
normally, running nothing. -/
def ProcessData.main (argv : List String) : List Event :=
  match argv with
  | [_, messages_filepath, categories_filepath, database_filepath] =>
    [Event.msg ("Loading data...\n    MESSAGES: " ++ messages_filepath
       ++ "\n    CATEGORIES: " ++ categories_filepath),
     Event.runLoad,
     Event.msg ("Cleaning data..."),
     Event.runClean,
     Event.msg ("Saving data...\n    DATABASE: " ++ database_filepath),
     Event.runSave,
     Event.msg ("Cleaned data saved to database!")]
  | _ => [Event.msg usageMsg]

/-- Re-packing one expanded category cell back into its name-value form;
the value is a single digit rendered with its decimal character.  Modelled
from the spec: the packed field encodes flags as name-value pairs. -/
def repackCell (name : String) (v : Int) : String :=
  name ++ "-" ++ String.mk [Nat.digitChar v.toNat]

/-- Joining re-packed cells with the semicolon delimiter.  Modelled from
the spec: pairs are joined by the delimiter. -/
def joinSemi : List String → String
  | [] => String.mk []
  | [s] => s
  | s :: rest => s ++ ";" ++ joinSemi rest

/-- Re-packing a whole row of expanded category columns back into the
packed string form name-value;name-value;... -/
def repackRow (names : List String) (vals : List Int) : String :=
  joinSemi (List.zipWith repackCell names vals)

/-- The spec's first scenario: two messages joined with their packed
category strings. -/
def exDf : Frame :=
  ⟨["id", "message", "categories"],
   [[Cell.int 1, Cell.str ("flood"), Cell.str ("related-1;request-0;offer-0;child_alone-0")],
    [Cell.int 2, Cell.str ("ok"), Cell.str ("related-0;request-0;offer-0;child_alone-0")]]⟩

/-- Cleaned output of the scenario frame. -/
def exOut : Frame :=
  ⟨["id", "message", "related", "request", "offer"],
   [[Cell.int 1, Cell.str ("flood"), Cell.int 1, Cell.int 0, Cell.int 0],
    [Cell.int 2, Cell.str ("ok"), Cell.int 0, Cell.int 0, Cell.int 0]]⟩

/-- The spec's scenario messages table. -/
def exMsgs : Frame :=
  ⟨["id", "message"],
   [[Cell.int 1, Cell.str ("flood")], [Cell.int 2, Cell.str ("ok")]]⟩

/-- The spec's scenario categories table. -/
def exCats : Frame :=
  ⟨["id", "categories"],
   [[Cell.int 1, Cell.str ("related-1;request-0;offer-0;child_alone-0")],
    [Cell.int 2, Cell.str ("related-0;request-0;offer-0;child_alone-0")]]⟩

/-- A joined table holding a category value outside the binary domain (an
offer flag encoded 3). -/
def cexDigitDf : Frame :=
  ⟨["id", "categories"],
   [[Cell.int 1, Cell.str ("related-1;request-0;offer-3;child_alone-0")]]⟩

/-- The cleaned output of `cexDigitDf`: the stray digit 3 survives. -/
def cexDigitOut : Frame :=
  ⟨["id", "related", "request", "offer"],
   [[Cell.int 1, Cell.int 1, Cell.int 0, Cell.int 3]]⟩

/-- A one-column table with a duplicated id, for the join-cardinality
counterexample. -/
def dupIdFrame : Frame := ⟨["id"], [[Cell.int 1], [Cell.int 1]]⟩

/-- A joined table whose packed field carries a non-numeric trailing
character (`related-x`): cleaning must fail fatally on it. -/
def cexBadCharDf : Frame :=
  ⟨["id", "categories"], [[Cell.int 1, Cell.str ("related-x;child_alone-0")]]⟩

/-! ### Basic lemmas about the embedded primitives -/

theorem mk_data (s : String) : String.mk s.data = s := rfl

theorem optMapM_cons_eq_some {f : α → Option β} {a : α} {l : List α} {r : List β}
    (h : optMapM f (a :: l) = some r) :
    ∃ b bs, f a = some b ∧ optMapM f l = some bs ∧ r = b :: bs := by
  unfold optMapM at h
  rw [Option.bind_eq_some] at h
  obtain ⟨b, hb, hmap⟩ := h
  rw [Option.map_eq_some'] at hmap
  obtain ⟨bs, hbs, hr⟩ := hmap
  exact ⟨b, bs, hb, hbs, hr.symm⟩

theorem optMapM_length {f : α → Option β} :
    ∀ {l : List α} {r : List β}, optMapM f l = some r → r.length = l.length := by
  intro l
  induction l with
  | nil => intro r h; simp [optMapM] at h; simp [← h]
  | cons a l ih =>
    intro r h
    obtain ⟨b, bs, _, hbs, rfl⟩ := optMapM_cons_eq_some h
    simp [ih hbs]

theorem optMapM_forall_some {f : α → Option β} :
    ∀ {l : List α} {r : List β}, optMapM f l = some r → ∀ a ∈ l, ∃ b ∈ r, f a = some b := by
  intro l
  induction l with
  | nil => intro r _ a ha; exact absurd ha (List.not_mem_nil a)
  | cons x l ih =>
    intro r h a ha
    obtain ⟨b, bs, hb, hbs, rfl⟩ := optMapM_cons_eq_some h
    rcases List.mem_cons.mp ha with rfl | ha
    · exact ⟨b, List.mem_cons_self b bs, hb⟩
    · obtain ⟨b2, hb2, hfb2⟩ := ih hbs a ha
      exact ⟨b2, List.mem_cons_of_mem b hb2, hfb2⟩

theorem optMapM_mem_of_mem_result {f : α → Option β} :
    ∀ {l : List α} {r : List β}, optMapM f l = some r → ∀ b ∈ r, ∃ a ∈ l, f a = some b := by
  intro l
  induction l with
  | nil => intro r h b hb; simp [optMapM] at h; subst h; exact absurd hb (List.not_mem_nil b)
  | cons x l ih =>
    intro r h b hb
    obtain ⟨b1, bs, hb1, hbs, rfl⟩ := optMapM_cons_eq_some h
    rcases List.mem_cons.mp hb with rfl | hb
    · exact ⟨x, List.mem_cons_self x l, hb1⟩
    · obtain ⟨a, ha, hfa⟩ := ih hbs b hb
      exact ⟨a, List.mem_cons_of_mem x ha, hfa⟩

theorem optMapM_none_of_mem {f : α → Option β} {l : List α} {a : α}
    (ha : a ∈ l) (hfa : f a = none) : optMapM f l = none := by
  induction l with
  | nil => exact absurd ha (List.not_mem_nil a)
  | cons x l ih =>
    rcases List.mem_cons.mp ha with rfl | ha
    · simp [optMapM, hfa]
    · cases hfx : f x with
      | none => simp [optMapM, hfx]
      | some b => simp [optMapM, hfx, ih ha]

theorem optMapM_head {f : α → Option β} {l : List α} {r : List β} {a : α}
    (h : optMapM f l = some r) (ha : l.head? = some a) :
    ∃ b, f a = some b ∧ r.head? = some b := by
  cases l with
  | nil => simp at ha
  | cons x l =>
    simp at ha
    subst ha
    obtain ⟨b, bs, hb, _, rfl⟩ := optMapM_cons_eq_some h
    exact ⟨b, hb, rfl⟩

theorem findCol_lt {name : String} :
    ∀ {cols : List String} {i : Nat}, findCol cols name = some i → i < cols.length := by
  intro cols
  induction cols with
  | nil => intro i h; simp [findCol] at h
  | cons c rest ih =>
    intro i h
    unfold findCol at h
    by_cases hc : c = name
    · rw [if_pos hc] at h
      injection h with h2
      simp only [List.length_cons]
      omega
    · rw [if_neg hc, Option.map_eq_some'] at h
      obtain ⟨j, hj, rfl⟩ := h
      have hlt := ih hj
      simp only [List.length_cons]
      omega

theorem findCol_getElem {name : String} :
    ∀ {cols : List String} {i : Nat}, findCol cols name = some i → cols[i]? = some name := by
  intro cols
  induction cols with
  | nil => intro i h; simp [findCol] at h
  | cons c rest ih =>
    intro i h
    unfold findCol at h
    by_cases hc : c = name
    · rw [if_pos hc] at h
      injection h with h2
      simp [← h2, hc]
    · rw [if_neg hc, Option.map_eq_some'] at h
      obtain ⟨j, hj, rfl⟩ := h
      simpa using ih hj

theorem dedupAux_subset [DecidableEq α] :
    ∀ (l seen : List α) (a : α), a ∈ dedupAux seen l → a ∈ l := by
  intro l
  induction l with
  | nil => intro seen a h; simp [dedupAux] at h
  | cons r rs ih =>
    intro seen a h
    unfold dedupAux at h
    by_cases hr : r ∈ seen
    · simp [hr] at h; exact List.mem_cons_of_mem r (ih seen a h)
    · simp [hr] at h
      rcases h with rfl | h
      · exact List.mem_cons_self a rs
      · exact List.mem_cons_of_mem r (ih (r :: seen) a h)

theorem dedupAux_nodup [DecidableEq α] :
    ∀ (l seen : List α), (dedupAux seen l).Nodup ∧ ∀ a ∈ dedupAux seen l, a ∉ seen := by
  intro l
  induction l with
  | nil => intro seen; simp [dedupAux]
  | cons r rs ih =>
    intro seen
    unfold dedupAux
    by_cases hr : r ∈ seen
    · simp only [hr, if_true]
      exact ih seen
    · simp only [hr, if_false]
      obtain ⟨hnd, hni⟩ := ih (r :: seen)
      constructor
      · refine List.nodup_cons.mpr ⟨?_, hnd⟩
        intro hmem
        exact (hni r hmem) (List.mem_cons_self r seen)
      · intro a ha
        rcases List.mem_cons.mp ha with rfl | ha
        · exact hr
        · intro hseen
          exact (hni a ha) (List.mem_cons_of_mem r hseen)

theorem dedupRows_nodup (l : List (List Cell)) : (dedupRows l).Nodup :=
  (dedupAux_nodup l []).1

theorem dedupRows_subset (l : List (List Cell)) : ∀ a ∈ dedupRows l, a ∈ l :=
  fun a ha => dedupAux_subset l [] a ha

theorem cellAt_append_left {r1 r2 : List Cell} {i : Nat} (h : i < r1.length) :
    cellAt (r1 ++ r2) i = cellAt r1 i := by
  unfold cellAt
  rw [List.getD_eq_getElem?_getD, List.getD_eq_getElem?_getD, List.getElem?_append]
  simp [h]

theorem dropColRow_not_mem {name : String} :
    ∀ (cols : List String) (r : List Cell), name ∉ cols → r.length = cols.length →
      dropColRow cols name r = r := by
  intro cols
  induction cols with
  | nil =>
    intro r _ hl
    have hr : r = [] := by simpa using hl
    subst hr
    rfl
  | cons c rest ih =>
    intro r hn hl
    cases r with
    | nil => simp at hl
    | cons x xs =>
      have hc : c ≠ name := fun h => hn (h ▸ List.mem_cons_self c rest)
      have hrest : name ∉ rest := fun h => hn (List.mem_cons_of_mem c h)
      simp only [List.length_cons] at hl
      have hxs := ih xs hrest (by omega)
      unfold dropColRow at hxs ⊢
      rw [List.zip_cons_cons, List.filter_cons]
      have hpc : (fun p => decide (p.1 ≠ name)) ((c, x) : String × Cell) = true := by
        simp [hc]
      rw [if_pos hpc]
      simp only [List.map_cons]
      rw [hxs]

theorem dropColRow_append {name : String} :
    ∀ (cols1 : List String) (r1 : List Cell) (cols2 : List String) (r2 : List Cell),
      r1.length = cols1.length →
      dropColRow (cols1 ++ cols2) name (r1 ++ r2) =
        dropColRow cols1 name r1 ++ dropColRow cols2 name r2 := by
  intro cols1 r1 cols2 r2 hl
  unfold dropColRow
  rw [List.zip_append hl.symm, List.filter_append, List.map_append]

theorem dropColRow_length {name : String} :
    ∀ (cols : List String) (r : List Cell), r.length = cols.length →
      (dropColRow cols name r).length = (cols.filter (fun c => c ≠ name)).length := by
  intro cols
  induction cols with
  | nil =>
    intro r hl
    have hr : r = [] := by simpa using hl
    subst hr
    rfl
  | cons c rest ih =>
    intro r hl
    cases r with
    | nil => simp at hl
    | cons x xs =>
      simp only [List.length_cons] at hl
      have hxs := ih xs (by omega)
      unfold dropColRow at hxs ⊢
      rw [List.zip_cons_cons, List.filter_cons, List.filter_cons]
      by_cases hc : c = name
      · rw [if_neg (by simp [hc]), if_neg (by simp [hc])]
        exact hxs
      · rw [if_pos (by simp [hc]), if_pos (by simp [hc])]
        simp only [List.map_cons, List.length_cons]
        rw [hxs]

theorem dropColRow_subset {cols : List String} {name : String} {r : List Cell} :
    ∀ x ∈ dropColRow cols name r, x ∈ r := by
  intro x hx
  unfold dropColRow at hx
  obtain ⟨⟨c, y⟩, hmem, rfl⟩ := List.mem_map.mp hx
  exact (List.of_mem_zip (List.mem_filter.mp hmem).1).2

theorem length_filter_ne [DecidableEq α] (l : List α) (a : α) :
    (l.filter (fun x => x ≠ a)).length = l.length - l.count a := by
  induction l with
  | nil => rfl
  | cons b l ih =>
    have hc := List.count_le_length a l
    rw [List.filter_cons, List.count_cons]
    by_cases hb : b = a
    · rw [if_neg (by simp [hb]), if_pos (by simp [hb])]
      simp only [List.length_cons]
      omega
    · rw [if_pos (by simp [hb]), if_neg (by simp [hb])]
      simp only [List.length_cons]
      omega

/-! ### Lemmas about the character-level string operations -/

theorem splitAux_sep_not_mem (sep : Char) :
    ∀ l : List Char, sep ∉ (splitAux sep l).1 ∧ ∀ p ∈ (splitAux sep l).2, sep ∉ p := by
  intro l
  induction l with
  | nil => simp [splitAux]
  | cons c cs ih =>
    unfold splitAux
    by_cases hc : c = sep
    · simp only [hc, if_pos rfl]
      refine ⟨by simp, ?_⟩
      intro p hp
      rcases List.mem_cons.mp hp with rfl | hp
      · exact ih.1
      · exact ih.2 p hp
    · simp only [if_neg hc]
      refine ⟨?_, ih.2⟩
      intro hmem
      rcases List.mem_cons.mp hmem with h | h
      · exact hc h.symm
      · exact ih.1 h

theorem splitAux_of_not_mem {sep : Char} :
    ∀ {l : List Char}, sep ∉ l → splitAux sep l = (l, []) := by
  intro l
  induction l with
  | nil => intro _; rfl
  | cons c cs ih =>
    intro h
    have hc : c ≠ sep := fun hh => h (hh ▸ List.mem_cons_self c cs)
    have hcs : sep ∉ cs := fun hh => h (List.mem_cons_of_mem c hh)
    unfold splitAux
    rw [ih hcs, if_neg hc]

theorem splitAux_append {sep : Char} :
    ∀ {l1 : List Char} (l2 : List Char), sep ∉ l1 →
      splitAux sep (l1 ++ sep :: l2) = (l1, (splitAux sep l2).1 :: (splitAux sep l2).2) := by
  intro l1
  induction l1 with
  | nil => intro l2 _; simp [splitAux]
  | cons c cs ih =>
    intro l2 h
    have hc : c ≠ sep := fun hh => h (hh ▸ List.mem_cons_self c cs)
    have hcs : sep ∉ cs := fun hh => h (List.mem_cons_of_mem c hh)
    have hstep : splitAux sep ((c :: cs) ++ sep :: l2) =
        (c :: (splitAux sep (cs ++ sep :: l2)).1, (splitAux sep (cs ++ sep :: l2)).2) := by
      rw [List.cons_append]
      simp only [splitAux]
      rw [if_neg hc]
    rw [hstep, ih l2 hcs]

theorem pySplit_of_not_mem {l : List Char} (h : (';') ∉ l) :
    pySplit (';') (String.mk l) = [String.mk l] := by
  unfold pySplit
  rw [show (String.mk l).data = l from rfl, splitAux_of_not_mem h]
  rfl

theorem pySplit_append {l1 l2 : List Char} (h : (';') ∉ l1) :
    pySplit (';') (String.mk (l1 ++ (';') :: l2)) =
      String.mk l1 :: pySplit (';') (String.mk l2) := by
  unfold pySplit
  rw [show (String.mk (l1 ++ (';') :: l2)).data = l1 ++ (';') :: l2 from rfl,
      splitAux_append l2 h]
  rfl

theorem pySplit_sep_not_mem (s : String) :
    ∀ p ∈ pySplit (';') s, (';') ∉ p.data := by
  intro p hp
  unfold pySplit at hp
  rcases List.mem_cons.mp hp with rfl | hp
  · exact (splitAux_sep_not_mem (';') s.data).1
  · obtain ⟨l, hl, rfl⟩ := List.mem_map.mp hp
    exact (splitAux_sep_not_mem (';') s.data).2 l hl

theorem pySplit_ne_nil (sep : Char) (s : String) : pySplit sep s ≠ [] := by
  unfold pySplit
  exact List.cons_ne_nil _ _

theorem pyDropTwo_data_sub (s : String) : ∀ c ∈ (pyDropTwo s).data, c ∈ s.data := by
  intro c hc
  unfold pyDropTwo at hc
  exact List.mem_of_mem_take hc

theorem pyIntChars_bound : ∀ {l : List Char} {v : Int}, pyIntChars l = some v → 0 ≤ v ∧ v ≤ 9 := by
  intro l v h
  cases l with
  | nil => simp [pyIntChars] at h
  | cons c rest =>
    cases rest with
    | cons c2 r2 => simp [pyIntChars] at h
    | nil =>
      simp only [pyIntChars] at h
      by_cases hc : 48 ≤ c.toNat ∧ c.toNat ≤ 57
      · rw [if_pos hc] at h
        injection h with h2
        subst h2
        refine ⟨Int.ofNat_nonneg _, ?_⟩
        have hle : c.toNat - 48 ≤ 9 := by omega
        exact_mod_cast hle
      · rw [if_neg hc] at h
        exact absurd h (by simp)

theorem pyInt_bound {s : String} {v : Int} (h : pyInt s = some v) : 0 ≤ v ∧ v ≤ 9 := by
  unfold pyInt at h
  exact pyIntChars_bound h

theorem normalizeCell_bound {s : String} {v : Int} (h : normalizeCell s = some v) :
    0 ≤ v ∧ v ≤ 9 :=
  pyInt_bound h

theorem digitChar_ne_semi {v : Int} (h0 : 0 ≤ v) (h9 : v ≤ 9) :
    Nat.digitChar v.toNat ≠ (';') := by
  interval_cases v <;> decide

theorem pyInt_digitChar {v : Int} (h0 : 0 ≤ v) (h9 : v ≤ 9) :
    pyInt (String.mk [Nat.digitChar v.toNat]) = some v := by
  interval_cases v <;> decide

theorem repackCell_data (n : String) (v : Int) :
    (repackCell n v).data = n.data ++ ('-') :: [Nat.digitChar v.toNat] := by
  unfold repackCell
  rw [String.data_append, String.data_append]
  rw [show ("-").data = [('-')] from rfl, List.append_assoc]
  rfl

theorem repackCell_sep_not_mem {n : String} {v : Int}
    (hn : (';') ∉ n.data) (h0 : 0 ≤ v) (h9 : v ≤ 9) :
    (';') ∉ (repackCell n v).data := by
  rw [repackCell_data]
  intro hmem
  rcases List.mem_append.mp hmem with h | h
  · exact hn h
  · rcases List.mem_cons.mp h with h | h
    · exact absurd h.symm (by decide)
    · rcases List.mem_cons.mp h with h | h
      · exact (digitChar_ne_semi h0 h9) h.symm
      · exact absurd h (List.not_mem_nil _)

theorem pyDropTwo_repackCell (n : String) (v : Int) : pyDropTwo (repackCell n v) = n := by
  unfold pyDropTwo
  rw [repackCell_data]
  have hlen : (n.data ++ ('-') :: [Nat.digitChar v.toNat]).length - 2 = n.data.length := by
    simp
  rw [hlen]
  rw [show ('-') :: [Nat.digitChar v.toNat] = [('-'), Nat.digitChar v.toNat] from rfl]
  rw [List.take_left n.data [('-'), Nat.digitChar v.toNat]]

theorem normalizeCell_repackCell {n : String} {v : Int} (h0 : 0 ≤ v) (h9 : v ≤ 9) :
    normalizeCell (repackCell n v) = some v := by
  unfold normalizeCell pyTakeLast
  rw [repackCell_data]
  have hlen : (n.data ++ ('-') :: [Nat.digitChar v.toNat]).length - 1 = n.data.length + 1 := by
    simp
  rw [hlen]
  rw [show ('-') :: [Nat.digitChar v.toNat] = [('-'), Nat.digitChar v.toNat] from rfl]
  rw [List.drop_append 1]
  simp only [List.drop_one]
  rw [show ([('-'), Nat.digitChar v.toNat] : List Char).tail = [Nat.digitChar v.toNat] from rfl]
  exact pyInt_digitChar h0 h9

theorem string_eq_of_data {s t : String} (h : s.data = t.data) : s = t := by
  cases s
  cases t
  exact congrArg String.mk h

theorem catNames_sep_not_mem (s : String) :
    ∀ n ∈ catNames (pySplit (';') s), (';') ∉ n.data := by
  intro n hn
  obtain ⟨p, hp, rfl⟩ := List.mem_map.mp hn
  intro hmem
  exact pySplit_sep_not_mem s p hp (pyDropTwo_data_sub p (';') hmem)

theorem repackRow_cons {n : String} {ns : List String} {v : Int} {vs : List Int}
    (hne : ns ≠ []) (hlen : ns.length = vs.length) :
    repackRow (n :: ns) (v :: vs) =
      String.mk ((repackCell n v).data ++ (';') :: (repackRow ns vs).data) := by
  unfold repackRow
  cases ns with
  | nil => exact absurd rfl hne
  | cons n2 ns2 =>
    cases vs with
    | nil => simp at hlen
    | cons v2 vs2 =>
      rw [List.zipWith_cons_cons, List.zipWith_cons_cons]
      show joinSemi (repackCell n v :: repackCell n2 v2 :: List.zipWith repackCell ns2 vs2) = _
      rw [show joinSemi (repackCell n v :: repackCell n2 v2 :: List.zipWith repackCell ns2 vs2) =
            repackCell n v ++ ";" ++ joinSemi (repackCell n2 v2 :: List.zipWith repackCell ns2 vs2)
          from rfl]
      apply string_eq_of_data
      rw [String.data_append, String.data_append]
      rw [show (";").data = [(';')] from rfl]
      rw [show (String.mk ((repackCell n v).data ++ (';') :: (joinSemi (repackCell n2 v2 :: List.zipWith repackCell ns2 vs2)).data)).data = (repackCell n v).data ++ (';') :: (joinSemi (repackCell n2 v2 :: List.zipWith repackCell ns2 vs2)).data from rfl]
      rw [List.append_assoc]
      rfl

theorem repack_roundtrip :
    ∀ (names : List String) (vals : List Int),
      (∀ n ∈ names, (';') ∉ n.data) →
      (∀ v ∈ vals, 0 ≤ v ∧ v ≤ 9) →
      names.length = vals.length → names ≠ [] →
      catNames (pySplit (';') (repackRow names vals)) = names ∧
      optMapM normalizeCell (pySplit (';') (repackRow names vals)) = some vals := by
  intro names
  induction names with
  | nil => intro vals _ _ _ hne; exact absurd rfl hne
  | cons n ns ih =>
    intro vals hsep hv hlen hne
    cases vals with
    | nil => simp at hlen
    | cons v vs =>
      have hn : (';') ∉ n.data := hsep n (List.mem_cons_self n ns)
      have hv0 := hv v (List.mem_cons_self v vs)
      have hcell := repackCell_sep_not_mem hn hv0.1 hv0.2
      cases ns with
      | nil =>
        have hvs : vs = [] := by
          simp only [List.length_cons, List.length_nil] at hlen
          exact List.length_eq_zero.mp (by omega)
        subst hvs
        rw [show repackRow [n] [v] = repackCell n v from rfl]
        have hsplit := @pySplit_of_not_mem ((repackCell n v).data) hcell
        rw [mk_data] at hsplit
        rw [hsplit]
        constructor
        · simp [catNames, pyDropTwo_repackCell]
        · simp [optMapM, normalizeCell_repackCell hv0.1 hv0.2]
      | cons n2 ns2 =>
        have hlen2 : (n2 :: ns2).length = vs.length := by
          simp only [List.length_cons] at hlen ⊢
          omega
        have hne2 : (n2 :: ns2) ≠ [] := List.cons_ne_nil _ _
        have hsep2 : ∀ x ∈ n2 :: ns2, (';') ∉ x.data :=
          fun x hx => hsep x (List.mem_cons_of_mem n hx)
        have hv2 : ∀ x ∈ vs, 0 ≤ x ∧ x ≤ 9 := fun x hx => hv x (List.mem_cons_of_mem v hx)
        obtain ⟨ihc, ihm⟩ := ih vs hsep2 hv2 hlen2 hne2
        rw [repackRow_cons hne2 hlen2]
        rw [pySplit_append hcell]
        rw [mk_data, mk_data]
        constructor
        · simp only [catNames, List.map_cons]
          rw [pyDropTwo_repackCell]
          have : List.map pyDropTwo (pySplit (';') (repackRow (n2 :: ns2) vs)) =
              catNames (pySplit (';') (repackRow (n2 :: ns2) vs)) := rfl
          rw [this, ihc]
        · rw [show optMapM normalizeCell (repackCell n v :: pySplit (';') (repackRow (n2 :: ns2) vs)) = (normalizeCell (repackCell n v)).bind (fun b => (optMapM normalizeCell (pySplit (';') (repackRow (n2 :: ns2) vs))).map (fun bs => b :: bs)) from rfl]
          rw [normalizeCell_repackCell hv0.1 hv0.2, ihm]
          rfl

/-! ### Structure of successful `clean_data` runs -/

theorem clean_data_eq_some {df out : Frame} (h : clean_data df = some out) :
    ∃ ci strs row0 vals,
      findCol df.cols ("categories") = some ci ∧
      optMapM (asCatString ci) df.rows = some strs ∧
      (strs.map (pySplit (';'))).head? = some row0 ∧
      ((strs.map (pySplit (';'))).all (fun p => p.length = row0.length)) = true ∧
      optMapM (fun p => optMapM normalizeCell p) (strs.map (pySplit (';'))) = some vals ∧
      cleanTail df (catNames row0) vals = some out := by
  unfold clean_data at h
  split at h
  · exact absurd h (by simp)
  next ci hci =>
    split at h
    · exact absurd h (by simp)
    next strs hstrs =>
      split at h
      · exact absurd h (by simp)
      next row0 hrow0 =>
        split at h
        next hall =>
          split at h
          · exact absurd h (by simp)
          next vals hvals =>
            exact ⟨ci, strs, row0, vals, hci, hstrs, hrow0, hall, hvals, h⟩
        next hall => exact absurd h (by simp)

theorem cleanTail_eq_some {df : Frame} {colnames : List String} {vals : List (List Int)}
    {out : Frame} (h : cleanTail df colnames vals = some out) :
    ∃ ri, ("child_alone") ∈ (concatFrame df colnames vals).cols ∧
      findCol ((concatFrame df colnames vals).dropCol ("child_alone")).cols ("related") = some ri ∧
      out = ⟨((concatFrame df colnames vals).dropCol ("child_alone")).cols,
             dedupRows ((((concatFrame df colnames vals).dropCol ("child_alone")).rows).filter
               (fun r => cellAt r ri ≠ Cell.int 2))⟩ := by
  unfold cleanTail at h
  split at h
  next hmem =>
    split at h
    next ri hri =>
      injection h with h2
      exact ⟨ri, hmem, hri, h2.symm⟩
    next hri => exact absurd h (by simp)
  next hmem => exact absurd h (by simp)

theorem find?_append_of_none {p : α → Bool} {l1 l2 : List α}
    (h : ∀ x ∈ l1, ¬p x = true) : List.find? p (l1 ++ l2) = List.find? p l2 := by
  rw [List.find?_append, List.find?_eq_none.mpr h]
  rfl

theorem find?_filter_of_imp {p q : α → Bool} (l : List α)
    (h : ∀ x, p x = true → q x = true) :
    List.find? p (l.filter q) = List.find? p l := by
  induction l with
  | nil => rfl
  | cons a l ih =>
    rw [List.filter_cons]
    by_cases hq : q a = true
    · rw [if_pos hq]
      by_cases hp : p a = true
      · rw [List.find?_cons_of_pos _ hp, List.find?_cons_of_pos _ hp]
      · rw [List.find?_cons_of_neg _ hp, List.find?_cons_of_neg _ hp]
        exact ih
    · rw [if_neg hq]
      have hp : ¬p a = true := fun hpa => hq (h a hpa)
      rw [List.find?_cons_of_neg _ hp]
      exact ih

/-! ### The claims -/

/-- Claim C7: with any argument count other than three (program name
excluded) `main` prints only the usage message and returns normally without
running a pipeline stage; with exactly three it announces and runs Loader,
Cleaner and Persister in order and reports completion. -/
theorem c7_cli_dispatch :
    (∀ argv : List String, argv.length ≠ 4 →
      ProcessData.main argv = [Event.msg usageMsg]) ∧
    (∀ p m c d : String, ProcessData.main [p, m, c, d] =
      [Event.msg ("Loading data...\n    MESSAGES: " ++ m ++ "\n    CATEGORIES: " ++ c),
       Event.runLoad,
       Event.msg ("Cleaning data..."),
       Event.runClean,
       Event.msg ("Saving data...\n    DATABASE: " ++ d),
       Event.runSave,
       Event.msg ("Cleaned data saved to database!")]) := by
  constructor
  · intro argv h
    match argv with
    | [] => rfl
    | [a] => rfl
    | [a, b] => rfl
    | [a, b, c] => rfl
    | [a, b, c, d] => exact absurd rfl h
    | a :: b :: c :: d :: e :: rest => rfl
  · intro p m c d
    rfl

/-- Witness for C7 at the empty argument vector. -/
theorem c7_cli_dispatch_witness : ProcessData.main [] = [Event.msg usageMsg] :=
  c7_cli_dispatch.1 [] (by decide)

/-- Claim C8: `save_data` stores the cleaned frame under the fixed table
name df with no implicit index column, replacing any prior table of that
name, so reading the name back returns exactly the written frame, and no
other table is touched. -/
theorem c8_persist_roundtrip : ∀ (df : Frame) (store : Store),
    read_sql_table ("df") (save_data df store) = some df ∧
    writeFrame df false = df ∧
    (∀ t, t ≠ ("df") → read_sql_table t (save_data df store) = read_sql_table t store) := by
  intro df store
  refine ⟨?_, rfl, ?_⟩
  · unfold read_sql_table save_data to_sql
    rw [find?_append_of_none ?hnone]
    case hnone =>
      intro x hx
      have hmem := (List.mem_filter.mp hx).2
      simp at hmem ⊢
      exact hmem
    simp [List.find?, writeFrame]
  · intro t ht
    unfold read_sql_table save_data to_sql
    rw [List.find?_append]
    have hlast : List.find? (fun p => decide (p.1 = t)) [(("df"), writeFrame df false)] = none := by
      apply List.find?_eq_none.mpr
      intro x hx
      have hx2 : x = (("df"), writeFrame df false) := by simpa using hx
      subst hx2
      intro hh
      have hh2 : ("df" : String) = t := by simpa using hh
      exact ht hh2.symm
    rw [hlast]
    rw [find?_filter_of_imp]
    · cases List.find? (fun p => decide (p.1 = t)) store.tables <;> rfl
    · intro x hx
      simp at hx ⊢
      rw [hx]
      exact ht

/-- Witness for C8: an unrelated table name is untouched by `save_data`. -/
theorem c8_persist_roundtrip_witness :
    read_sql_table ("other") (save_data exOut ⟨[]⟩) = read_sql_table ("other") ⟨[]⟩ :=
  (c8_persist_roundtrip exOut ⟨[]⟩).2.2 ("other") (by decide)

/-- Claim C9: category names derived by the split and rename steps never
contain the delimiter, normalized values are single digits, and re-packing
a row of expanded category columns into name-value;... form and re-running
the split, rename and normalize steps returns exactly the same column
names and cell values. -/
theorem c9_expansion_idempotent :
    (∀ s : String, ∀ n ∈ catNames (pySplit (';') s), (';') ∉ n.data) ∧
    (∀ (s : String) (v : Int), normalizeCell s = some v → 0 ≤ v ∧ v ≤ 9) ∧
    (∀ (names : List String) (vals : List Int),
      (∀ n ∈ names, (';') ∉ n.data) →
      (∀ v ∈ vals, 0 ≤ v ∧ v ≤ 9) →
      names.length = vals.length → names ≠ [] →
      catNames (pySplit (';') (repackRow names vals)) = names ∧
      optMapM normalizeCell (pySplit (';') (repackRow names vals)) = some vals) :=
  ⟨catNames_sep_not_mem, fun _ _ h => normalizeCell_bound h, repack_roundtrip⟩

/-- Witness for C9 on a concrete two-column row. -/
theorem c9_expansion_idempotent_witness :
    catNames (pySplit (';') (repackRow ["related", "request"] [1, 0])) = ["related", "request"] ∧
    optMapM normalizeCell (pySplit (';') (repackRow ["related", "request"] [1, 0])) =
      some [1, 0] :=
  c9_expansion_idempotent.2.2 ["related", "request"] [1, 0]
    (by decide) (by decide) (by decide) (by decide)

/-- Claim C10: `clean_data` mutates its argument: whenever it returns a
cleaned frame, the caller's frame has lost its categories column (and
nothing else), so on a concrete input the argument is not left unchanged
even though the result is returned as a new value. -/
theorem c10_caller_mutation :
    (∀ df out : Frame, clean_data df = some out →
      clean_data_caller df = df.dropCol ("categories") ∧
      ("categories") ∉ (clean_data_caller df).cols) ∧
    (clean_data_caller exDf ≠ exDf ∧ clean_data exDf = some exOut) := by
  refine ⟨?_, by decide, by decide⟩
  intro df out h
  obtain ⟨ci, strs, row0, vals, hci, hstrs, hrow0, hall, hvals, htail⟩ := clean_data_eq_some h
  have hcaller : clean_data_caller df = df.dropCol ("categories") := by
    unfold clean_data_caller
    simp only [hci, hstrs, hrow0, hall, hvals, if_true]
  refine ⟨hcaller, ?_⟩
  rw [hcaller]
  unfold Frame.dropCol
  intro hmem
  have := (List.mem_filter.mp hmem).2
  simp at this

/-- Witness for C10 at the scenario frame. -/
theorem c10_caller_mutation_witness :
    clean_data_caller exDf = exDf.dropCol ("categories") ∧
    ("categories") ∉ (clean_data_caller exDf).cols :=
  c10_caller_mutation.1 exDf exOut (by decide)

theorem clean_data_shape {df out : Frame} {ci : Nat} {r0 : List Cell} {s : String}
    (hci : findCol df.cols ("categories") = some ci)
    (hhead : df.rows.head? = some r0)
    (hcell : cellAt r0 ci = Cell.str s)
    (h : clean_data df = some out) :
    ∃ strs vals ri,
      optMapM (asCatString ci) df.rows = some strs ∧
      ((strs.map (pySplit (';'))).all
        (fun p => p.length = (pySplit (';') s).length)) = true ∧
      optMapM (fun p => optMapM normalizeCell p) (strs.map (pySplit (';'))) = some vals ∧
      ("child_alone") ∈ (concatFrame df (catNames (pySplit (';') s)) vals).cols ∧
      findCol ((concatFrame df (catNames (pySplit (';') s)) vals).dropCol
        ("child_alone")).cols ("related") = some ri ∧
      out = ⟨((concatFrame df (catNames (pySplit (';') s)) vals).dropCol ("child_alone")).cols,
             dedupRows ((((concatFrame df (catNames (pySplit (';') s)) vals).dropCol
               ("child_alone")).rows).filter (fun r => cellAt r ri ≠ Cell.int 2))⟩ := by
  obtain ⟨ci2, strs, row0, vals, hci2, hstrs, hrow0, hall, hvals, htail⟩ := clean_data_eq_some h
  rw [hci] at hci2
  injection hci2 with hcieq
  subst hcieq
  obtain ⟨s0, hs0, hshead⟩ := optMapM_head hstrs hhead
  have hs0s : s0 = s := by
    unfold asCatString at hs0
    rw [hcell] at hs0
    injection hs0 with h2
    exact h2.symm
  subst hs0s
  have hrow0s : row0 = pySplit (';') s0 := by
    rw [List.head?_map, hshead] at hrow0
    simp at hrow0
    exact hrow0.symm
  subst hrow0s
  obtain ⟨ri, hmem, hri, hout⟩ := cleanTail_eq_some htail
  exact ⟨strs, vals, ri, hstrs, hall, hvals, hmem, hri, hout⟩

/-- Claim C5: for a non-empty joined table, the category column names are
obtained by splitting the first row's packed string on the semicolon and
stripping exactly the trailing two characters of each of the N pieces
(`pyDropTwo` is the slice `x[:-2]`), those N names label the expanded
columns, and the cleaned frame's columns are the remaining original
columns followed by those names (minus the dropped child_alone label). -/
theorem c5_column_naming : ∀ (df out : Frame) (ci : Nat) (r0 : List Cell) (s : String),
    findCol df.cols ("categories") = some ci →
    df.rows.head? = some r0 →
    cellAt r0 ci = Cell.str s →
    clean_data df = some out →
    catNames (pySplit (';') s) = (pySplit (';') s).map pyDropTwo ∧
    (catNames (pySplit (';') s)).length = (pySplit (';') s).length ∧
    out.cols = ((df.cols.filter (fun c => c ≠ "categories")) ++ catNames (pySplit (';') s)).filter
      (fun c => c ≠ "child_alone") := by
  intro df out ci r0 s hci hhead hcell h
  obtain ⟨strs, vals, ri, hstrs, hall, hvals, hmem, hri, hout⟩ :=
    clean_data_shape hci hhead hcell h
  refine ⟨rfl, by simp [catNames], ?_⟩
  rw [hout]
  rfl

/-- Witness for C5 at the spec's scenario frame. -/
theorem c5_column_naming_witness :
    exOut.cols = ((exDf.cols.filter (fun c => c ≠ "categories")) ++
      catNames (pySplit (';') ("related-1;request-0;offer-0;child_alone-0"))).filter
      (fun c => c ≠ "child_alone") :=
  (c5_column_naming exDf exOut 2
    [Cell.int 1, Cell.str ("flood"), Cell.str ("related-1;request-0;offer-0;child_alone-0")]
    ("related-1;request-0;offer-0;child_alone-0")
    (by decide) (by decide) (by decide) (by decide)).2.2

/-- Claim C1: whenever `clean_data` succeeds on a joined frame (with a
single categories column, a child_alone category appearing once among the
derived names and not among the other columns), the result has no
duplicate rows, no row whose related column holds 2, and exactly N-1
category columns for the N categories of the packed field. -/
theorem c1_clean_result : ∀ (df out : Frame) (ci : Nat) (r0 : List Cell) (s : String),
    findCol df.cols ("categories") = some ci →
    df.rows.head? = some r0 →
    cellAt r0 ci = Cell.str s →
    df.cols.count ("categories") = 1 →
    ("child_alone") ∉ df.cols →
    (catNames (pySplit (';') s)).count ("child_alone") = 1 →
    clean_data df = some out →
    out.rows.Nodup ∧
    (∀ i, findCol out.cols ("related") = some i →
      ∀ r ∈ out.rows, cellAt r i ≠ Cell.int 2) ∧
    out.cols.length = (df.cols.length - 1) + ((pySplit (';') s).length - 1) := by
  intro df out ci r0 s hci hhead hcell hcount hca hcountCa h
  obtain ⟨strs, vals, ri, hstrs, hall, hvals, hmem, hri, hout⟩ :=
    clean_data_shape hci hhead hcell h
  subst hout
  refine ⟨?_, ?_, ?_⟩
  · exact dedupRows_nodup _
  · intro i hi r hr
    have hi2 : findCol ((concatFrame df (catNames (pySplit (';') s)) vals).dropCol
        ("child_alone")).cols ("related") = some i := hi
    have hieq := hri.symm.trans hi2
    injection hieq with hieq2
    subst hieq2
    have hr2 : r ∈ dedupRows ((((concatFrame df (catNames (pySplit (';') s)) vals).dropCol
        ("child_alone")).rows).filter (fun r => cellAt r ri ≠ Cell.int 2)) := hr
    have hr3 := dedupRows_subset _ r hr2
    have hr4 := (List.mem_filter.mp hr3).2
    exact of_decide_eq_true hr4
  · show (((df.cols.filter (fun c => c ≠ "categories")) ++
      catNames (pySplit (';') s)).filter (fun c => c ≠ "child_alone")).length = _
    rw [List.filter_append, List.length_append]
    have h1 : List.filter (fun c => decide (c ≠ ("child_alone")))
        (List.filter (fun c => decide (c ≠ ("categories"))) df.cols) =
        List.filter (fun c => decide (c ≠ ("categories"))) df.cols := by
      apply List.filter_eq_self.mpr
      intro a ha
      have hadf : a ∈ df.cols := (List.mem_filter.mp ha).1
      simp only [decide_eq_true_eq]
      exact fun heq => hca (heq ▸ hadf)
    rw [h1]
    rw [length_filter_ne df.cols ("categories"),
        length_filter_ne (catNames (pySplit (';') s)) ("child_alone")]
    rw [hcount, hcountCa]
    have hN : (catNames (pySplit (';') s)).length = (pySplit (';') s).length := by
      simp [catNames]
    rw [hN]

/-- Witness for C1 at the spec's scenario frame. -/
theorem c1_clean_result_witness :
    exOut.rows.Nodup ∧
    (∀ i, findCol exOut.cols ("related") = some i →
      ∀ r ∈ exOut.rows, cellAt r i ≠ Cell.int 2) ∧
    exOut.cols.length = (exDf.cols.length - 1) +
      ((pySplit (';') ("related-1;request-0;offer-0;child_alone-0")).length - 1) :=
  c1_clean_result exDf exOut 2
    [Cell.int 1, Cell.str ("flood"), Cell.str ("related-1;request-0;offer-0;child_alone-0")]
    ("related-1;request-0;offer-0;child_alone-0")
    (by decide) (by decide) (by decide) (by decide) (by decide) (by decide) (by decide)

/-- Counterexample to C2 as stated: a raw category encoded `offer-3`
survives cleaning, so a category column of the output holds 3, which is
neither 0 nor 1. -/
theorem c2_value_domain_counterexample :
    clean_data cexDigitDf = some cexDigitOut ∧
    ¬(∀ r ∈ cexDigitOut.rows, ∀ x ∈ r.drop 1, x = Cell.int 0 ∨ x = Cell.int 1) :=
  ⟨by decide, by decide⟩

/-- Claim C2 (amended): after cleaning, every category column of the
result holds a single-digit integer between 0 and 9 (the integer parse of
the final character of the raw encoding; 0 and 1 only when the raw data is
binary), and the related column never holds 2. -/
theorem c2_value_domain : ∀ (df out : Frame) (ci : Nat) (r0 : List Cell) (s : String),
    df.WF →
    findCol df.cols ("categories") = some ci →
    df.rows.head? = some r0 →
    cellAt r0 ci = Cell.str s →
    ("child_alone") ∉ df.cols →
    clean_data df = some out →
    (∀ r ∈ out.rows, ∀ x ∈ r.drop ((df.cols.filter (fun c => c ≠ "categories")).length),
      ∃ v, x = Cell.int v ∧ 0 ≤ v ∧ v ≤ 9) ∧
    (∀ i, findCol out.cols ("related") = some i →
      ∀ r ∈ out.rows, cellAt r i ≠ Cell.int 2) := by
  intro df out ci r0 s hWF hci hhead hcell hca h
  obtain ⟨strs, vals, ri, hstrs, hall, hvals, hmem, hri, hout⟩ :=
    clean_data_shape hci hhead hcell h
  subst hout
  constructor
  · intro r hr x hx
    have hr2 : r ∈ dedupRows ((((concatFrame df (catNames (pySplit (';') s)) vals).dropCol
        ("child_alone")).rows).filter (fun r => cellAt r ri ≠ Cell.int 2)) := hr
    have hr3 := dedupRows_subset _ r hr2
    have hr4 := (List.mem_filter.mp hr3).1
    have hr5 : r ∈ ((concatFrame df (catNames (pySplit (';') s)) vals).rows).map
        (dropColRow ((df.cols.filter (fun c => c ≠ "categories")) ++
          catNames (pySplit (';') s)) ("child_alone")) := hr4
    obtain ⟨fr, hfr, hfr2⟩ := List.mem_map.mp hr5
    have hfr3 : fr ∈ (((df.dropCol ("categories")).rows.zip vals).map
        (fun pr => pr.1 ++ pr.2.map Cell.int)) := hfr
    obtain ⟨pr, hpr, hpr2⟩ := List.mem_map.mp hfr3
    have hprm := List.of_mem_zip hpr
    have hpr1mem : pr.1 ∈ df.rows.map (dropColRow df.cols ("categories")) := hprm.1
    obtain ⟨dfr, hdfr, hpr1⟩ := List.mem_map.mp hpr1mem
    have hdfrlen : dfr.length = df.cols.length := hWF dfr hdfr
    have hbaselen : pr.1.length = (df.cols.filter (fun c => c ≠ "categories")).length := by
      rw [← hpr1]
      exact dropColRow_length df.cols dfr hdfrlen
    have hsplit := @dropColRow_append ("child_alone")
      (df.cols.filter (fun c => c ≠ "categories")) pr.1
      (catNames (pySplit (';') s)) (pr.2.map Cell.int) hbaselen
    have hbase_id : dropColRow (df.cols.filter (fun c => c ≠ "categories"))
        ("child_alone") pr.1 = pr.1 := by
      apply dropColRow_not_mem
      · intro hmem2
        exact hca ((List.mem_filter.mp hmem2).1)
      · exact hbaselen
    rw [← hfr2, ← hpr2] at hx
    rw [hsplit, hbase_id] at hx
    rw [← hbaselen, List.drop_left] at hx
    have hx2 := dropColRow_subset x hx
    obtain ⟨v, hv, hv2⟩ := List.mem_map.mp hx2
    obtain ⟨p, hp, hnorm⟩ := optMapM_mem_of_mem_result hvals pr.2 hprm.2
    obtain ⟨sv, hsv, hsvn⟩ := optMapM_mem_of_mem_result hnorm v hv
    have hb := normalizeCell_bound hsvn
    exact ⟨v, hv2.symm, hb.1, hb.2⟩
  · intro i hi r hr
    have hi2 : findCol ((concatFrame df (catNames (pySplit (';') s)) vals).dropCol
        ("child_alone")).cols ("related") = some i := hi
    have hieq := hri.symm.trans hi2
    injection hieq with hieq2
    subst hieq2
    have hr2 : r ∈ dedupRows ((((concatFrame df (catNames (pySplit (';') s)) vals).dropCol
        ("child_alone")).rows).filter (fun r => cellAt r ri ≠ Cell.int 2)) := hr
    have hr3 := dedupRows_subset _ r hr2
    have hr4 := (List.mem_filter.mp hr3).2
    exact of_decide_eq_true hr4

/-- Witness for C2 (amended) at the stray-digit frame: the surviving cell
3 is a single digit. -/
theorem c2_value_domain_witness :
    ∃ v, Cell.int 3 = Cell.int v ∧ 0 ≤ v ∧ v ≤ 9 :=
  (c2_value_domain cexDigitDf cexDigitOut 1
    [Cell.int 1, Cell.str ("related-1;request-0;offer-3;child_alone-0")]
    ("related-1;request-0;offer-3;child_alone-0")
    (by decide) (by decide) (by decide) (by decide) (by decide) (by decide)).1
    [Cell.int 1, Cell.int 1, Cell.int 0, Cell.int 3] (by decide)
    (Cell.int 3) (by decide)

/-- Claim C6: the normalized value of every expanded category cell depends
only on the final character of the original string, parsed as an integer —
related-0 becomes 0, related-1 becomes 1 — and a non-numeric trailing
character anywhere in the frame makes the whole of `clean_data` fail
rather than produce a partial result. -/
theorem c6_normalize_last_char :
    (∀ s t : String, pyTakeLast s = pyTakeLast t → normalizeCell s = normalizeCell t) ∧
    normalizeCell ("related-0") = some 0 ∧
    normalizeCell ("related-1") = some 1 ∧
    (∀ (df : Frame) (ci : Nat) (strs : List String),
      findCol df.cols ("categories") = some ci →
      optMapM (asCatString ci) df.rows = some strs →
      (∃ s ∈ strs, ∃ p ∈ pySplit (';') s, normalizeCell p = none) →
      clean_data df = none) := by
  refine ⟨?_, by decide, by decide, ?_⟩
  · intro s t h
    unfold normalizeCell
    rw [h]
  · intro df ci strs hci hstrs hbad
    obtain ⟨s, hs, p, hp, hnp⟩ := hbad
    cases hcd : clean_data df with
    | none => rfl
    | some out =>
      exfalso
      obtain ⟨ci2, strs2, row0, vals, hci2, hstrs2, hrow0, hall, hvals, htail⟩ :=
        clean_data_eq_some hcd
      have hcieq := hci.symm.trans hci2
      injection hcieq with hcieq2
      subst hcieq2
      have hstrseq := hstrs.symm.trans hstrs2
      injection hstrseq with hstrseq2
      subst hstrseq2
      have hsplitmem : pySplit (';') s ∈ strs.map (pySplit (';')) :=
        List.mem_map_of_mem (pySplit (';')) hs
      obtain ⟨b, _, hb⟩ := optMapM_forall_some hvals (pySplit (';') s) hsplitmem
      have hnone := optMapM_none_of_mem hp hnp
      rw [hnone] at hb
      exact absurd hb (by simp)

/-- Witness for C6: the normalization ignores all but the last character,
and the bad-character frame dies. -/
theorem c6_normalize_last_char_witness :
    normalizeCell ("abc-0") = normalizeCell ("xyz-0") ∧ clean_data cexBadCharDf = none :=
  ⟨c6_normalize_last_char.1 ("abc-0") ("xyz-0") (by decide),
   c6_normalize_last_char.2.2.2 cexBadCharDf 1 ["related-x;child_alone-0"]
     (by decide) (by decide)
     ⟨"related-x;child_alone-0", by decide, "related-x", by decide, by decide⟩⟩

theorem append_ux_ne_id (s : String) : s ++ "_x" ≠ "id" := by
  intro h
  have hd := congrArg String.data h
  rw [String.data_append] at hd
  have hlen := congrArg List.length hd
  rw [List.length_append] at hlen
  have hnil : s.data = [] := by
    have h2 : s.data.length + 2 = 2 := by simpa using hlen
    exact List.eq_nil_of_length_eq_zero (by omega)
  rw [hnil] at hd
  exact absurd hd (by decide)

theorem findCol_map_append {g : String → String} {T : List String}
    (hg : ∀ x, g x = ("id") ↔ x = ("id")) :
    ∀ {mcols : List String} {im : Nat}, findCol mcols ("id") = some im →
      findCol (mcols.map g ++ T) ("id") = some im := by
  intro mcols
  induction mcols with
  | nil => intro im h; simp [findCol] at h
  | cons a rest ih =>
    intro im h
    unfold findCol at h
    rw [List.map_cons, List.cons_append]
    unfold findCol
    by_cases ha : a = ("id")
    · rw [if_pos ha] at h
      injection h with h2
      rw [if_pos ((hg a).mpr ha), ← h2]
    · rw [if_neg ha, Option.map_eq_some'] at h
      obtain ⟨j, hj, rfl⟩ := h
      rw [if_neg (fun hh => ha ((hg a).mp hh))]
      rw [ih hj]
      rfl

theorem mergeRename_id_iff (ccols : List String) :
    ∀ x, (if x = ("id") then x else if x ∈ ccols then x ++ "_x" else x) = ("id") ↔
      x = ("id") := by
  intro x
  constructor
  · intro h
    by_cases hx : x = ("id")
    · exact hx
    · rw [if_neg hx] at h
      by_cases hm : x ∈ ccols
      · rw [if_pos hm] at h
        exact absurd h (append_ux_ne_id x)
      · rw [if_neg hm] at h
        exact absurd h hx
  · intro h
    rw [if_pos h, h]

theorem merge_eq_some {m c out : Frame} {im ic : Nat}
    (him : findCol m.cols ("id") = some im) (hic : findCol c.cols ("id") = some ic)
    (h : load_data m c = some out) :
    out = ⟨mergeCols m.cols c.cols ic,
           m.rows.flatMap (fun mr =>
             (c.rows.filter (fun cr => cellAt cr ic = cellAt mr im)).map
               (fun cr => mr ++ cr.eraseIdx ic))⟩ := by
  unfold load_data Frame.merge at h
  split at h
  next im2 ic2 him2 hic2 =>
    have h1 := him.symm.trans him2
    have h2 := hic.symm.trans hic2
    injection h1 with h1b
    injection h2 with h2b
    subst h1b
    subst h2b
    injection h with h3
    exact h3.symm
  next hno => exact absurd h (by simp)

/-- Claim C3: every row of the inner join carries an id value occurring in
both input tables (at their respective id columns), the joined frame's id
column sits at the position of the left frame's id column, and an id value
missing from either side never appears in the output. -/
theorem c3_join_ids : ∀ (m c out : Frame) (im ic : Nat),
    m.WF →
    findCol m.cols ("id") = some im →
    findCol c.cols ("id") = some ic →
    load_data m c = some out →
    findCol out.cols ("id") = some im ∧
    (∀ r ∈ out.rows,
      cellAt r im ∈ m.rows.map (fun x => cellAt x im) ∧
      cellAt r im ∈ c.rows.map (fun x => cellAt x ic)) ∧
    (∀ v : Cell,
      (v ∉ m.rows.map (fun x => cellAt x im) ∨ v ∉ c.rows.map (fun x => cellAt x ic)) →
      v ∉ out.rows.map (fun r => cellAt r im)) := by
  intro m c out im ic hWF him hic h
  have hout := merge_eq_some him hic h
  subst hout
  have hmain : ∀ r ∈ (m.rows.flatMap (fun mr =>
      (c.rows.filter (fun cr => cellAt cr ic = cellAt mr im)).map
        (fun cr => mr ++ cr.eraseIdx ic))),
      cellAt r im ∈ m.rows.map (fun x => cellAt x im) ∧
      cellAt r im ∈ c.rows.map (fun x => cellAt x ic) := by
    intro r hr
    obtain ⟨mr, hmr, hr2⟩ := List.mem_flatMap.mp hr
    obtain ⟨cr, hcr, rfl⟩ := List.mem_map.mp hr2
    have hcr1 := (List.mem_filter.mp hcr).1
    have hcrp := of_decide_eq_true (List.mem_filter.mp hcr).2
    have hlt : im < mr.length := by
      rw [hWF mr hmr]
      exact findCol_lt him
    rw [cellAt_append_left hlt]
    constructor
    · exact List.mem_map_of_mem (fun x => cellAt x im) hmr
    · rw [← hcrp]
      exact List.mem_map_of_mem (fun x => cellAt x ic) hcr1
  refine ⟨?_, hmain, ?_⟩
  · exact findCol_map_append (mergeRename_id_iff c.cols) him
  · intro v hv hvm
    obtain ⟨r, hr, rfl⟩ := List.mem_map.mp hvm
    have hm2 := hmain r hr
    rcases hv with hv | hv
    · exact hv hm2.1
    · exact hv hm2.2

/-- Witness for C3 at the spec's scenario tables. -/
theorem c3_join_ids_witness :
    cellAt [Cell.int 1, Cell.str ("flood"),
        Cell.str ("related-1;request-0;offer-0;child_alone-0")] 0 ∈
      exMsgs.rows.map (fun x => cellAt x 0) ∧
    cellAt [Cell.int 1, Cell.str ("flood"),
        Cell.str ("related-1;request-0;offer-0;child_alone-0")] 0 ∈
      exCats.rows.map (fun x => cellAt x 0) :=
  (c3_join_ids exMsgs exCats exDf 0 0 (by decide) (by decide) (by decide) (by decide)).2.1
    [Cell.int 1, Cell.str ("flood"), Cell.str ("related-1;request-0;offer-0;child_alone-0")]
    (by decide)

theorem length_filter_add_not (p : α → Bool) (l : List α) :
    (l.filter p).length + (l.filter (fun x => !(p x))).length = l.length := by
  induction l with
  | nil => rfl
  | cons a l ih =>
    rw [List.filter_cons, List.filter_cons]
    cases hp : p a
    · rw [if_neg (by simp [hp]), if_pos (by simp [hp])]
      simp only [List.length_cons]
      omega
    · rw [if_pos (by simp [hp]), if_neg (by simp [hp])]
      simp only [List.length_cons]
      omega

theorem filter_length_le_one [DecidableEq α] (f : γ → α) (v : α) (cs : List γ)
    (h : (cs.map f).Nodup) : (cs.filter (fun cr => f cr = v)).length ≤ 1 := by
  induction cs with
  | nil => simp
  | cons a cs ih =>
    rw [List.map_cons, List.nodup_cons] at h
    rw [List.filter_cons]
    by_cases ha : f a = v
    · rw [if_pos (by simpa using ha)]
      have hempty : cs.filter (fun cr => decide (f cr = v)) = [] := by
        apply List.filter_eq_nil_iff.mpr
        intro x hx
        simp only [decide_eq_true_eq]
        intro hfx
        have hmm : f a ∈ List.map f cs := by
          rw [ha.trans hfx.symm]
          exact List.mem_map_of_mem f hx
        exact h.1 hmm
      rw [hempty]
      simp
    · rw [if_neg (by simpa using ha)]
      exact ih h.2

theorem sum_count_le [DecidableEq α] (g : β → α) (f : γ → α) :
    ∀ (ms : List β) (cs : List γ), (ms.map g).Nodup →
      (ms.map (fun mr => (cs.filter (fun cr => f cr = g mr)).length)).sum ≤ cs.length := by
  intro ms
  induction ms with
  | nil => intro cs _; simp
  | cons mr ms ih =>
    intro cs hnd
    rw [List.map_cons, List.nodup_cons] at hnd
    rw [List.map_cons, List.sum_cons]
    have hrest : ∀ b ∈ ms, cs.filter (fun cr => decide (f cr = g b)) =
        (cs.filter (fun cr => !(decide (f cr = g mr)))).filter
          (fun cr => decide (f cr = g b)) := by
      intro b hb
      rw [List.filter_filter]
      apply List.filter_congr
      intro cr _
      by_cases hcb : f cr = g b
      · have hne : f cr ≠ g mr := by
          intro hcm
          exact hnd.1 (by rw [hcm.symm.trans hcb]; exact List.mem_map_of_mem g hb)
        have hgb : ¬(g b = g mr) := fun hh => hne (hcb.trans hh)
        simp [hcb, hgb]
      · simp [hcb]
    have hsums : (ms.map (fun b => (cs.filter (fun cr => f cr = g b)).length)).sum =
        (ms.map (fun b => ((cs.filter (fun cr => !(decide (f cr = g mr)))).filter
          (fun cr => f cr = g b)).length)).sum := by
      apply congrArg List.sum
      apply List.map_congr_left
      intro b hb
      rw [hrest b hb]
    rw [hsums]
    have hih := ih (cs.filter (fun cr => !(decide (f cr = g mr)))) hnd.2
    have hsplit := length_filter_add_not (fun cr => decide (f cr = g mr)) cs
    omega

/-- Counterexample to C4 as stated: with a duplicated id on both sides the
inner join is a per-key cross product, so two rows joined with two rows
give four rows, exceeding min(2, 2). -/
theorem c4_join_shape_counterexample :
    (load_data dupIdFrame dupIdFrame).map (fun f => f.rows.length) = some 4 ∧
    ¬(4 ≤ min dupIdFrame.rows.length dupIdFrame.rows.length) :=
  ⟨by decide, by decide⟩

/-- Claim C4 (amended): when the two inputs share no column label other
than id, id occurs once in the right table, and the id values are unique
within each input, the joined frame's columns are the left columns
followed by the right columns minus id, and its row count is at most
min(|messages|, |categories|). -/
theorem c4_join_shape : ∀ (m c out : Frame) (im ic : Nat),
    findCol m.cols ("id") = some im →
    findCol c.cols ("id") = some ic →
    load_data m c = some out →
    (∀ x ∈ m.cols, x ∈ c.cols → x = ("id")) →
    ("id") ∉ c.cols.eraseIdx ic →
    (m.rows.map (fun r => cellAt r im)).Nodup →
    (c.rows.map (fun r => cellAt r ic)).Nodup →
    out.cols = m.cols ++ c.cols.eraseIdx ic ∧
    out.rows.length ≤ min m.rows.length c.rows.length := by
  intro m c out im ic him hic h hshared hide hmnd hcnd
  have hout := merge_eq_some him hic h
  subst hout
  constructor
  · show mergeCols m.cols c.cols ic = _
    unfold mergeCols
    have hlefteq : ∀ x ∈ m.cols,
        (if x = ("id") then x else if x ∈ c.cols then x ++ "_x" else x) = x := by
      intro x hx
      by_cases hxi : x = ("id")
      · rw [if_pos hxi]
      · rw [if_neg hxi]
        by_cases hxc : x ∈ c.cols
        · exact absurd (hshared x hx hxc) hxi
        · rw [if_neg hxc]
    have hrighteq : ∀ x ∈ c.cols.eraseIdx ic, (if x ∈ m.cols then x ++ "_y" else x) = x := by
      intro x hx
      by_cases hxm : x ∈ m.cols
      · have hxc : x ∈ c.cols := List.eraseIdx_subset _ _ hx
        have hxi := hshared x hxm hxc
        exact absurd (hxi ▸ hx) hide
      · rw [if_neg hxm]
    rw [List.map_congr_left hlefteq, List.map_congr_left hrighteq]
    simp
  · show (m.rows.flatMap (fun mr =>
      (c.rows.filter (fun cr => cellAt cr ic = cellAt mr im)).map
        (fun cr => mr ++ cr.eraseIdx ic))).length ≤ _
    rw [List.length_flatMap]
    have hmap : m.rows.map (List.length ∘ (fun mr =>
        (c.rows.filter (fun cr => cellAt cr ic = cellAt mr im)).map
          (fun cr => mr ++ cr.eraseIdx ic))) =
        m.rows.map (fun mr => (c.rows.filter
          (fun cr => cellAt cr ic = cellAt mr im)).length) := by
      apply List.map_congr_left
      intro mr _
      simp [Function.comp]
    rw [hmap]
    apply le_min
    · have hb : ∀ mr ∈ m.rows,
          (c.rows.filter (fun cr => cellAt cr ic = cellAt mr im)).length ≤ 1 :=
        fun mr _ => filter_length_le_one (fun cr => cellAt cr ic) (cellAt mr im) c.rows hcnd
      calc (m.rows.map (fun mr => (c.rows.filter
              (fun cr => cellAt cr ic = cellAt mr im)).length)).sum
          ≤ (m.rows.map (fun mr => 1)).sum := List.sum_le_sum hb
        _ = m.rows.length := by simp
    · exact sum_count_le (fun mr => cellAt mr im) (fun cr => cellAt cr ic) m.rows c.rows hmnd

/-- Witness for C4 (amended) at the spec's scenario tables. -/
theorem c4_join_shape_witness :
    exDf.cols = exMsgs.cols ++ exCats.cols.eraseIdx 0 ∧
    exDf.rows.length ≤ min exMsgs.rows.length exCats.rows.length :=
  c4_join_shape exMsgs exCats exDf 0 0 (by decide) (by decide) (by decide)
    (by decide) (by decide) (by decide) (by decide)
